import Mathlib

/-!
Verification of the archive-URL normalization engine
(`fetch_mca_metadata.py`, function `normalize_archive_url`) and of the
session-conflict detector (`session_manager.py`, class `SessionManager`).

Strings are modelled as `List Char`.  The Python standard-library helpers
that the two scripts rely on (`str.strip`, `str.rstrip`, `urllib.parse.urlparse`,
`urllib.parse.unquote`, the concrete regular expressions, `str.split`) are
embedded as executable functions below; each definition carries a comment
naming the Python construct it translates.
-/

namespace Renku

/-- ASCII whitespace as recognised by Python `str.strip()` (the Unicode
whitespace characters beyond ASCII are not used by any input considered
here). -/
def isPySpace (c : Char) : Bool :=
  c == ' ' || c == '\t' || c == '\n' || c == '\r' || c == '\x0b' || c == '\x0c'

/-- ASCII lower-casing, as `str.lower()` acts on scheme characters. -/
def asciiLower (c : Char) : Char :=
  if 'A' ≤ c ∧ c ≤ 'Z' then Char.ofNat (c.toNat + 32) else c

def isAsciiAlpha (c : Char) : Bool :=
  ('a' ≤ c && c ≤ 'z') || ('A' ≤ c && c ≤ 'Z')

def isAsciiDigit (c : Char) : Bool :=
  '0' ≤ c && c ≤ '9'

/-- The characters CPython's `urlsplit` accepts inside a URL scheme. -/
def isSchemeChar (c : Char) : Bool :=
  isAsciiAlpha c || isAsciiDigit c || c == '+' || c == '-' || c == '.'

/-- Python `str.rstrip(chars)`: removes from the right every character that
belongs to the character SET `chars` — not the exact suffix `chars`. -/
def rstripChars (chars : List Char) (s : List Char) : List Char :=
  ((s.reverse.dropWhile (fun c => chars.contains c)).reverse)

/-- Python `str.strip()` (no argument): trim whitespace from both ends. -/
def pstrip (s : List Char) : List Char :=
  ((s.dropWhile isPySpace).reverse.dropWhile isPySpace).reverse

/-- One iteration of the suffix-removal loop in `normalize_archive_url`
(lines 129-131): `if archive_url.endswith(suffix): archive_url =
archive_url.rstrip(suffix)`. -/
def stripOne (sfx : List Char) (u : List Char) : List Char :=
  if sfx.isSuffixOf u then rstripChars sfx u else u

/-- The whole suffix-removal loop over
`['/content', '/download', '?download=1', '?dl=1']`, in source order. -/
def stripSuffixes (u : List Char) : List Char :=
  stripOne "?dl=1".data
    (stripOne "?download=1".data
      (stripOne "/download".data
        (stripOne "/content".data u)))

/-- Remove a literal leading pattern, returning the remainder on success. -/
def chopPre : List Char → List Char → Option (List Char)
  | [], s => some s
  | _ :: _, [] => none
  | p :: ps, c :: cs => if p = c then chopPre ps cs else none

/-- Python substring test `needle in hay`. -/
def containsSub (needle : List Char) : List Char → Bool
  | [] => needle.isEmpty
  | c :: t => needle.isPrefixOf (c :: t) || containsSub needle t

def hexVal (c : Char) : Option Nat :=
  if '0' ≤ c ∧ c ≤ '9' then some (c.toNat - '0'.toNat)
  else if 'a' ≤ c ∧ c ≤ 'f' then some (c.toNat - 'a'.toNat + 10)
  else if 'A' ≤ c ∧ c ≤ 'F' then some (c.toNat - 'A'.toNat + 10)
  else none

/-- Python `urllib.parse.unquote`, modelled for single-byte (ASCII) percent
escapes: `%XY` with two hex digits becomes the character with code `0xXY`;
an invalid or truncated escape leaves the `%` literal (CPython behaviour).
Multi-byte UTF-8 escape sequences lie outside the inputs this development
evaluates. -/
def unquote : List Char → List Char
  | [] => []
  | '%' :: a :: b :: rest =>
    (match hexVal a, hexVal b with
     | some x, some y => Char.ofNat (16 * x + y) :: unquote rest
     | _, _ => '%' :: unquote (a :: b :: rest))
  | c :: rest => c :: unquote rest

/-- Result record of `urllib.parse.urlparse` (the fields the scripts use). -/
structure UrlParts where
  scheme : List Char
  netloc : List Char
  path : List Char
  params : List Char
  query : List Char
  fragment : List Char
deriving Repr, DecidableEq

/-- CPython `urlsplit` scheme step: the text before the first `:` becomes the
scheme when it is nonempty, starts with an ASCII letter and consists of
scheme characters only; it is lower-cased and removed together with the
colon.  Otherwise no scheme is split off. -/
def splitScheme (u : List Char) : List Char × List Char :=
  let pre := u.takeWhile (fun c => c != ':')
  if pre.length < u.length ∧ pre ≠ [] ∧ isAsciiAlpha (pre.headD ' ') = true ∧
      pre.all isSchemeChar = true then
    (pre.map asciiLower, u.drop (pre.length + 1))
  else ([], u)

/-- Python `s.split(stop, 1)` keyed on presence of `stop`, as `urlsplit`
separates the fragment and the query. -/
def splitOnceAt (stop : Char) (s : List Char) : List Char × List Char :=
  let pre := s.takeWhile (fun c => c != stop)
  (pre, if pre.length < s.length then s.drop (pre.length + 1) else [])

def netlocChar (c : Char) : Bool :=
  c != '/' && c != '?' && c != '#'

/-- CPython `_splitparams`: split `;params` off the last path segment (off
the whole path when it contains no `/`). -/
def splitParams (p : List Char) : List Char × List Char :=
  let ls := (p.reverse.takeWhile (fun c => c != '/')).reverse
  let hp := p.take (p.length - ls.length)
  let a := ls.takeWhile (fun c => c != ';')
  if a.length < ls.length then (hp ++ a, ls.drop (a.length + 1)) else (p, [])

/-- CPython `urlparse`: scheme, then netloc after a literal `//` (up to the
first `/`, `?` or `#`), then fragment after `#`, then query after `?`, then
`;params` split off the path's last segment.  `none` models the `ValueError`
CPython raises on a netloc containing one bracket of an IPv6 pair without
the other. -/
def urlparseE (u : List Char) : Option UrlParts :=
  let su := splitScheme u
  let nlSplit :=
    if su.2.take 2 = ['/', '/'] then
      ((su.2.drop 2).takeWhile netlocChar, (su.2.drop 2).dropWhile netlocChar)
    else ([], su.2)
  if nlSplit.1.contains '[' != nlSplit.1.contains ']' then none
  else
    let sf := splitOnceAt '#' nlSplit.2
    let sq := splitOnceAt '?' sf.1
    let pp := splitParams sq.1
    some ⟨su.1, nlSplit.1, pp.1, pp.2, sq.2, sf.2⟩

/-- `re.match(r'/api/records/([^/]+)/files/([^/?]+)', path)`: the record id
and the (still percent-encoded) filename segment. -/
def matchApi (path : List Char) : Option (List Char × List Char) :=
  match chopPre "/api/records/".data path with
  | none => none
  | some r1 =>
    let rid := r1.takeWhile (fun c => c != '/')
    if rid = [] then none
    else match chopPre "/files/".data (r1.dropWhile (fun c => c != '/')) with
      | none => none
      | some r2 =>
        let fn := r2.takeWhile (fun c => c != '/' && c != '?')
        if fn = [] then none else some (rid, fn)

/-- `re.match(r'/records/[^/]+/files/[^/]+\.aiida$', path)` (a `$`-anchored
match: the final segment is a nonempty `/`-free run ending in `.aiida`,
with at least one character before the extension). -/
def matchCanonical (path : List Char) : Bool :=
  match chopPre "/records/".data path with
  | none => false
  | some r1 =>
    let rid := r1.takeWhile (fun c => c != '/')
    if rid = [] then false
    else match chopPre "/files/".data (r1.dropWhile (fun c => c != '/')) with
      | none => false
      | some r2 =>
        decide (7 ≤ r2.length) && r2.all (fun c => c != '/') &&
          ".aiida".data.isSuffixOf r2

/-- `re.match(r'/record/([^/?]+)', path)` — the legacy singular form. -/
def matchOldRecord (path : List Char) : Option (List Char) :=
  match chopPre "/record/".data path with
  | none => none
  | some r1 =>
    let rid := r1.takeWhile (fun c => c != '/' && c != '?')
    if rid = [] then none else some rid

/-- `re.match(r'/records/([^/?]+)/?$', path)` — a records URL without a
file segment. -/
def matchRecordsOnly (path : List Char) : Option (List Char) :=
  match chopPre "/records/".data path with
  | none => none
  | some r1 =>
    let rid := r1.takeWhile (fun c => c != '/' && c != '?')
    if rid = [] then none
    else
      let rest := r1.dropWhile (fun c => c != '/' && c != '?')
      if rest = [] ∨ rest = ['/'] then some rid else none

/-- `re.match(r'/records/([^/]+)/files/([^/?]+)', path)`. -/
def matchRecordsFiles (path : List Char) : Option (List Char × List Char) :=
  match chopPre "/records/".data path with
  | none => none
  | some r1 =>
    let rid := r1.takeWhile (fun c => c != '/')
    if rid = [] then none
    else match chopPre "/files/".data (r1.dropWhile (fun c => c != '/')) with
      | none => none
      | some r2 =>
        let fn := r2.takeWhile (fun c => c != '/' && c != '?')
        if fn = [] then none else some (rid, fn)

/-- Which branch of `normalize_archive_url` produced the returned string;
each constructor corresponds to one `return` statement (and its diagnostic
print) of the source. -/
inductive NormOutcome where
  | emptyInput
  | untrustedHost
  | apiRewritten (rid fn : List Char)
  | alreadyCanonical
  | oldRecordAmbiguous (rid : List Char)
  | recordsOnlyAmbiguous (rid : List Char)
  | filesRewritten (rid fn : List Char)
  | wrongFileType (fn : List Char)
  | queryStripRetry
  | unrecognized
deriving Repr, DecidableEq

def expectedHost : List Char := "materialscloud.org".data

/-- `f"{parsed.scheme}://{parsed.netloc}/records/{record_id}/files/{filename}"`. -/
def rebuildUrl (sch nl rid fn : List Char) : List Char :=
  sch ++ "://".data ++ nl ++ "/records/".data ++ rid ++ "/files/".data ++ fn

/-- The body of `normalize_archive_url` up to (but excluding) the pattern-5
recursive call: `.inl` is one of the function's `return` statements,
`.inr (s2, clean)` is the query-stripping retry carrying the stripped url
`s2` and the retry argument `clean`.  `.inl none` models the `ValueError`
that `urlparse` raises on a half-bracketed IPv6 netloc and that
`normalize_archive_url` does not catch. -/
def normalizeStep (u : List Char) :
    (Option (List Char × NormOutcome)) ⊕ (List Char × List Char) :=
  if pstrip u = [] then .inl (some (u, .emptyInput))
  else
    let s2 := rstripChars ['/'] (stripSuffixes (pstrip u))
    match urlparseE s2 with
    | none => .inl none
    | some p =>
      if containsSub expectedHost p.netloc = false then
        .inl (some (s2, .untrustedHost))
      else
        match matchApi p.path with
        | some (rid, seg) =>
          let fn := unquote seg
          if ".aiida".data.isSuffixOf fn then
            .inl (some (rebuildUrl p.scheme p.netloc rid fn, .apiRewritten rid fn))
          else .inl (some (s2, .wrongFileType fn))
        | none =>
          if matchCanonical p.path then .inl (some (s2, .alreadyCanonical))
          else match matchOldRecord p.path with
          | some rid => .inl (some (s2, .oldRecordAmbiguous rid))
          | none => match matchRecordsOnly p.path with
            | some rid => .inl (some (s2, .recordsOnlyAmbiguous rid))
            | none => match matchRecordsFiles p.path with
              | some (rid, seg) =>
                let fn := unquote seg
                if ".aiida".data.isSuffixOf fn then
                  .inl (some (rebuildUrl p.scheme p.netloc rid fn, .filesRewritten rid fn))
                else .inl (some (s2, .wrongFileType fn))
              | none =>
                if s2.contains '?' then
                  let clean := s2.takeWhile (fun c => c != '?')
                  if clean ≠ s2 then .inr (s2, clean)
                  else .inl (some (s2, .unrecognized))
                else .inl (some (s2, .unrecognized))

/-- `normalize_archive_url` with explicit fuel bounding the query-stripping
recursion (the Python source recurses without an explicit bound; theorem
`c9_query_strip_once` shows the retry fires at most once, so every fuel of
at least one retry — in particular the entry point below — coincides with
the source's unbounded recursion). -/
def normalizeGo : Nat → List Char → Option (List Char × NormOutcome)
  | fuel, u =>
    match normalizeStep u with
    | .inl r => r
    | .inr sc =>
      match fuel with
      | 0 => some (sc.1, .queryStripRetry)
      | fuel' + 1 => normalizeGo fuel' sc.2

def normalize_archive_url (u : List Char) : Option (List Char × NormOutcome) :=
  normalizeGo 1 u

/-- A canonical acceptance: the three `return` paths that the `main`
validation treats as a usable archive reference. -/
def NormOutcome.isAccept : NormOutcome → Bool
  | .apiRewritten _ _ => true
  | .alreadyCanonical => true
  | .filesRewritten _ _ => true
  | _ => false

/-! The session manager (`session_manager.py`).  The persisted state and the
warning artifacts are modelled as an explicit `World`.  The session file is in
one of four states: absent; present with bytes that are not valid UTF-8 (then
`json.load` raises `UnicodeDecodeError`, which is a `ValueError` and matches
neither `json.JSONDecodeError` nor `IOError`, so the `except` clause of
`load_current_session` does NOT catch it and it propagates); present and
UTF-8-decodable but failing `json.load` with `json.JSONDecodeError` (or the
read failing with `IOError`) — the caught arm, yielding `None`; or present
with a parsed record.  Uncaught exceptions are modelled with `Except`; the
environment-derived session id, the timestamp and the pid are injected as
parameters. -/

structure SessionRecord where
  session_id : String
  archive_url : Option String
  timestamp : String
  pid : Nat
deriving Repr, DecidableEq

/-- An exception escaping the session manager uncaught. -/
inductive PyError where
  | unicodeDecodeError
deriving Repr, DecidableEq

/-- The state of `current_session.json` on disk. -/
inductive SessFileState where
  /-- No file (`os.path.exists` is false). -/
  | absent
  /-- A file whose bytes cannot be UTF-8-decoded: `json.load` raises
  `UnicodeDecodeError`, not caught by `except (json.JSONDecodeError, IOError)`. -/
  | badEncoding
  /-- A UTF-8-decodable file that is not valid JSON (`json.JSONDecodeError`),
  or a read that fails with `IOError`: the caught arm, yielding `None`. -/
  | badJson
  /-- A file that parses into a session record. -/
  | parsed (r : SessionRecord)
deriving Repr, DecidableEq

structure World where
  sessionFile : SessFileState
  warningFile : Option String
  summaryFile : Option String
deriving Repr, DecidableEq

/-- `SessionManager.load_current_session`: a missing file yields `None`; a
parse failure is caught — and yields `None` — only when it is a
`json.JSONDecodeError` or an `IOError`; the `UnicodeDecodeError` raised on
non-UTF-8 file contents propagates uncaught. -/
def load_current_session (w : World) : Except PyError (Option SessionRecord) :=
  match w.sessionFile with
  | .absent => .ok none
  | .badEncoding => .error .unicodeDecodeError
  | .badJson => .ok none
  | .parsed r => .ok (some r)

/-- `SessionManager.save_current_session`: overwrite the session file with
the current identity, url, timestamp and pid; nothing else is touched. -/
def save_current_session (w : World) (sid : String) (url : String)
    (ts : String) (pid : Nat) : World :=
  { w with sessionFile := .parsed ⟨sid, some url, ts, pid⟩ }

/-- `SessionManager.check_session_conflict`: classify the relation between
the persisted record and the current invocation.  The method performs no
writes on any path — including the path where `load_current_session` raises —
so the (unchanged) world is returned alongside the `Except`-valued result. -/
def check_session_conflict (w : World) (sid : String) (curUrl : Option String) :
    World × Except PyError (String × Option SessionRecord) :=
  match load_current_session w with
  | .error e => (w, .error e)
  | .ok none => (w, .ok ("new_session", none))
  | .ok (some ex) =>
    if ex.session_id = sid then
      if ex.archive_url = curUrl then (w, .ok ("same_session", some ex))
      else (w, .ok ("url_changed", some ex))
    else (w, .ok ("session_conflict", some ex))

/-! `SessionManager.get_archive_info` and its helpers. -/

/-- `re.search(r"/files/([^/?]+)", path)`: scan for the first position where
the pattern matches. -/
def searchFilesSeg : List Char → Option (List Char)
  | [] => none
  | c :: t =>
    match chopPre "/files/".data (c :: t) with
    | some r =>
      let g := r.takeWhile (fun x => x != '/' && x != '?')
      if g = [] then searchFilesSeg t else some g
    | none => searchFilesSeg t

/-- `re.search(r"/records/([^/]+)/", path)`: the group must be followed by a
closing slash. -/
def searchRecordsSlash : List Char → Option (List Char)
  | [] => none
  | c :: t =>
    match chopPre "/records/".data (c :: t) with
    | some r =>
      let g := r.takeWhile (fun x => x != '/')
      if g = [] then searchRecordsSlash t
      else if r.dropWhile (fun x => x != '/') = [] then searchRecordsSlash t
      else some g
    | none => searchRecordsSlash t

/-- Python `str.split('/')` (splits on every separator; `"".split('/')`
is `[""]`). -/
def splitSlashAux : List Char → List Char → List (List Char)
  | acc, [] => [acc.reverse]
  | acc, c :: t =>
    if c = '/' then acc.reverse :: splitSlashAux [] t
    else splitSlashAux (c :: acc) t

def splitSlash (s : List Char) : List (List Char) :=
  splitSlashAux [] s

/-- Python `str.strip('/')`. -/
def stripSlashes (s : List Char) : List Char :=
  ((s.dropWhile (fun c => c == '/')).reverse.dropWhile (fun c => c == '/')).reverse

/-- The final fallback `url[:50] + "..." if len(url) > 50 else url`. -/
def truncUrl (u : List Char) : List Char :=
  if 50 < u.length then u.take 50 ++ "...".data else u

/-- `SessionManager.get_archive_info`.  The `try`/`except` is modelled
explicitly: the only raising operation in the body is `urlparse`, whose
failure falls through to the truncation fallback. -/
def get_archive_info (url : List Char) : List Char :=
  if url = [] then "None".data
  else
    match urlparseE url with
    | none => truncUrl url
    | some p =>
      match searchFilesSeg p.path with
      | some seg =>
        let fn := unquote seg
        match searchRecordsSlash p.path with
        | some rid => fn ++ " (record: ".data ++ rid ++ ")".data
        | none => fn
      | none =>
        match (splitSlash (stripSlashes p.path)).getLast? with
        | some lastPart => lastPart
        | none => truncUrl url

/-! ## Basic lemmas about the string primitives -/

theorem suffix_split_le {s a b : List Char} (h : s <:+ a ++ b)
    (hl : s.length ≤ b.length) : s <:+ b := by
  rw [List.suffix_iff_eq_drop, List.length_append] at h
  have he : a.length + b.length - s.length = a.length + (b.length - s.length) := by omega
  rw [he, List.drop_append] at h
  rw [h]
  exact List.drop_suffix _ _

theorem suffix_split_gt {s a b : List Char} (h : s <:+ a ++ b)
    (hl : b.length < s.length) :
    s.take (s.length - b.length) <:+ a ∧ s = s.take (s.length - b.length) ++ b := by
  have hlen : s.length ≤ a.length + b.length := by simpa using h.length_le
  obtain ⟨t, ht⟩ := h
  have htl : t.length + s.length = a.length + b.length := by
    have := congrArg List.length ht
    simpa using this
  have key : (t ++ s.take (s.length - b.length)) ++ s.drop (s.length - b.length) = a ++ b := by
    rw [List.append_assoc, List.take_append_drop]
    exact ht
  have hlen2 : (t ++ s.take (s.length - b.length)).length = a.length := by
    simp
    omega
  have ha : t ++ s.take (s.length - b.length) = a := by
    have h2 := congrArg (List.take a.length) key
    rwa [List.take_left' hlen2, List.take_left] at h2
  have hb : s.drop (s.length - b.length) = b := by
    rw [← ha] at key
    exact List.append_cancel_left key
  refine ⟨⟨t, ha⟩, ?_⟩
  conv_lhs => rw [← List.take_append_drop (s.length - b.length) s]
  rw [hb]

/-- Master lemma for refuting `sfx.endswith` on `pre ++ tok`: the suffix
contains a `/` that the token cannot supply, and every way the suffix could
straddle the boundary is excluded by `hex`. -/
theorem not_suffix_append_excluded {sfx pre tok : List Char}
    (hmem : '/' ∈ sfx)
    (htok : ∀ c ∈ tok, c ≠ '/')
    (hex : ∀ j, 1 ≤ j → j ≤ sfx.length → sfx.take j <:+ pre → sfx.drop j ≠ tok) :
    ¬ sfx <:+ pre ++ tok := by
  intro h
  rcases le_or_lt sfx.length tok.length with hle | hgt
  · exact htok '/' ((suffix_split_le h hle).subset hmem) rfl
  · obtain ⟨h1, h2⟩ := suffix_split_gt h hgt
    have hdrop : sfx.drop (sfx.length - tok.length) = tok := by
      have h3 := (List.take_append_drop (sfx.length - tok.length) sfx).trans h2
      exact List.append_cancel_left h3
    exact hex (sfx.length - tok.length) (by omega) (by omega) h1 hdrop

theorem not_suffix_of_mem_absent {sfx u : List Char} {c : Char}
    (hc : c ∈ sfx) (hu : c ∉ u) : ¬ sfx <:+ u :=
  fun h => hu (h.subset hc)

theorem stripOne_eq_self {sfx u : List Char} (h : ¬ sfx <:+ u) :
    stripOne sfx u = u := by
  unfold stripOne
  rw [if_neg (by simpa [List.isSuffixOf_iff_suffix] using h)]

theorem stripSuffixes_eq_self {u : List Char}
    (h1 : ¬ "/content".data <:+ u) (h2 : ¬ "/download".data <:+ u)
    (h3 : ¬ "?download=1".data <:+ u) (h4 : ¬ "?dl=1".data <:+ u) :
    stripSuffixes u = u := by
  unfold stripSuffixes
  rw [stripOne_eq_self h1, stripOne_eq_self h2, stripOne_eq_self h3, stripOne_eq_self h4]

theorem dropWhile_eq_self_of_head {p : Char → Bool} {l : List Char}
    (h : ∀ c ∈ l.head?, p c = false) : l.dropWhile p = l := by
  cases l with
  | nil => rfl
  | cons c t =>
    apply List.dropWhile_cons_of_neg
    simp [h c (by simp)]

theorem pstrip_eq_self {u : List Char}
    (h1 : ∀ c ∈ u.head?, isPySpace c = false)
    (h2 : ∀ c ∈ u.getLast?, isPySpace c = false) : pstrip u = u := by
  unfold pstrip
  rw [dropWhile_eq_self_of_head h1]
  rw [dropWhile_eq_self_of_head (by simpa using h2)]
  exact List.reverse_reverse u

theorem rstripChars_eq_self {cs u : List Char}
    (h : ∀ c ∈ u.getLast?, cs.contains c = false) : rstripChars cs u = u := by
  unfold rstripChars
  rw [dropWhile_eq_self_of_head (by simpa using h)]
  exact List.reverse_reverse u

theorem rstripChars_mem {cs u : List Char} {c : Char}
    (h : c ∈ rstripChars cs u) : c ∈ u := by
  unfold rstripChars at h
  rw [List.mem_reverse] at h
  exact (List.mem_reverse).mp ((List.dropWhile_suffix _).subset h)

theorem stripOne_mem {sfx u : List Char} {c : Char}
    (h : c ∈ stripOne sfx u) : c ∈ u := by
  unfold stripOne at h
  split at h
  · exact rstripChars_mem h
  · exact h

theorem stripSuffixes_mem {u : List Char} {c : Char}
    (h : c ∈ stripSuffixes u) : c ∈ u := by
  unfold stripSuffixes at h
  exact stripOne_mem (stripOne_mem (stripOne_mem (stripOne_mem h)))

theorem pstrip_mem {u : List Char} {c : Char} (h : c ∈ pstrip u) : c ∈ u := by
  unfold pstrip at h
  rw [List.mem_reverse] at h
  have h2 := (List.dropWhile_suffix _).subset h
  rw [List.mem_reverse] at h2
  exact (List.dropWhile_suffix _).subset h2

theorem chopPre_append (p r : List Char) : chopPre p (p ++ r) = some r := by
  induction p with
  | nil => rfl
  | cons c t ih => simpa [chopPre] using ih

theorem chopPre_eq_some {p : List Char} :
    ∀ {s r : List Char}, chopPre p s = some r → s = p ++ r := by
  induction p with
  | nil =>
    intro s r h
    simp only [chopPre, Option.some.injEq] at h
    simpa using h
  | cons c t ih =>
    intro s r h
    cases s with
    | nil => simp [chopPre] at h
    | cons d u =>
      simp only [chopPre] at h
      split at h
      · next heq => subst heq; rw [List.cons_append]; exact congrArg _ (ih h)
      · exact absurd h (by simp)

theorem takeWhile_append_stop {p : Char → Bool} {b c : List Char}
    (hb : ∀ x ∈ b, p x = true) (hc : ∀ x ∈ c.head?, p x = false) :
    (b ++ c).takeWhile p = b := by
  rw [List.takeWhile_append_of_pos hb]
  have : c.takeWhile p = [] := by
    cases c with
    | nil => rfl
    | cons d t => exact List.takeWhile_cons_of_neg (by simp [hc d (by simp)])
  rw [this, List.append_nil]

theorem dropWhile_append_stop {p : Char → Bool} {b c : List Char}
    (hb : ∀ x ∈ b, p x = true) (hc : ∀ x ∈ c.head?, p x = false) :
    (b ++ c).dropWhile p = c := by
  rw [List.dropWhile_append_of_pos hb]
  exact dropWhile_eq_self_of_head hc

theorem unquote_cons_of_ne {c : Char} {t : List Char} (h : c ≠ '%') :
    unquote (c :: t) = c :: unquote t := by
  rw [unquote.eq_def]
  split
  · simp_all
  · next heq2 => exact absurd (List.cons.inj heq2).1 h
  · next heq =>
    obtain ⟨h1, h2⟩ := List.cons.inj heq
    subst h1; rw [h2]

theorem unquote_eq_self {s : List Char} (h : ∀ c ∈ s, c ≠ '%') :
    unquote s = s := by
  induction s with
  | nil => rfl
  | cons c t ih =>
    rw [unquote_cons_of_ne (h c (by simp))]
    rw [ih (fun x hx => h x (by simp [hx]))]

theorem unquote_len_le : ∀ s : List Char, (unquote s).length ≤ s.length
  | [] => by simp [unquote]
  | c :: rest => by
    by_cases hc : c = '%'
    · subst hc
      match rest with
      | [] => simp [unquote]
      | [d] => simp [unquote]
      | d :: e :: r =>
        have h1 := unquote_len_le r
        have h2 := unquote_len_le (d :: e :: r)
        rw [unquote]
        split <;> simp only [List.length_cons] at h1 h2 ⊢ <;> omega
    · rw [unquote_cons_of_ne hc]
      have := unquote_len_le rest
      simp only [List.length_cons]
      omega

/-! ## Character arithmetic for `asciiLower` and the scheme classes -/

theorem char_le_iff_toNat {c d : Char} : c ≤ d ↔ c.toNat ≤ d.toNat := by
  rw [Char.le_def]
  constructor
  · intro h; simpa [Char.toNat, UInt32.toNat] using h
  · intro h
    simp only [UInt32.le_def, BitVec.le_def]
    simpa [Char.toNat, UInt32.toNat] using h

theorem char_eq_iff_toNat {c d : Char} : c = d ↔ c.toNat = d.toNat :=
  ⟨fun h => h ▸ rfl, fun h => Char.ext (UInt32.toNat.inj h)⟩

theorem char_ne_of_toNat_ne {c d : Char} (h : c.toNat ≠ d.toNat) : c ≠ d :=
  fun he => h (he ▸ rfl)

theorem ofNat_toNat_valid {n : Nat} (h : n < 55296) : (Char.ofNat n).toNat = n := by
  rw [Char.ofNat, dif_pos (Or.inl h)]
  simp [Char.ofNatAux, Char.toNat, UInt32.toNat, BitVec.toNat_ofNatLt]

theorem asciiLower_toNat (c : Char) :
    (asciiLower c).toNat =
      if 65 ≤ c.toNat ∧ c.toNat ≤ 90 then c.toNat + 32 else c.toNat := by
  unfold asciiLower
  by_cases h : 'A' ≤ c ∧ c ≤ 'Z'
  · have h1 : 65 ≤ c.toNat := by simpa using char_le_iff_toNat.mp h.1
    have h2 : c.toNat ≤ 90 := by simpa using char_le_iff_toNat.mp h.2
    rw [if_pos h, if_pos ⟨h1, h2⟩]
    exact ofNat_toNat_valid (by omega)
  · rw [if_neg h, if_neg]
    intro hc
    exact h ⟨char_le_iff_toNat.mpr (by simpa using hc.1),
      char_le_iff_toNat.mpr (by simpa using hc.2)⟩

theorem isAsciiAlpha_iff {c : Char} :
    isAsciiAlpha c = true ↔
      (97 ≤ c.toNat ∧ c.toNat ≤ 122) ∨ (65 ≤ c.toNat ∧ c.toNat ≤ 90) := by
  unfold isAsciiAlpha
  simp only [Bool.or_eq_true, Bool.and_eq_true, decide_eq_true_eq, char_le_iff_toNat]
  norm_num [show ('a' : Char).toNat = 97 from rfl, show ('z' : Char).toNat = 122 from rfl,
    show ('A' : Char).toNat = 65 from rfl, show ('Z' : Char).toNat = 90 from rfl]

theorem isSchemeChar_iff {c : Char} :
    isSchemeChar c = true ↔
      (97 ≤ c.toNat ∧ c.toNat ≤ 122) ∨ (65 ≤ c.toNat ∧ c.toNat ≤ 90) ∨
      (48 ≤ c.toNat ∧ c.toNat ≤ 57) ∨ c.toNat = 43 ∨ c.toNat = 45 ∨ c.toNat = 46 := by
  unfold isSchemeChar isAsciiDigit
  simp only [Bool.or_eq_true, Bool.and_eq_true, decide_eq_true_eq, char_le_iff_toNat,
    beq_iff_eq, char_eq_iff_toNat, isAsciiAlpha_iff]
  norm_num [show ('0' : Char).toNat = 48 from rfl, show ('9' : Char).toNat = 57 from rfl,
    show ('+' : Char).toNat = 43 from rfl, show ('-' : Char).toNat = 45 from rfl,
    show ('.' : Char).toNat = 46 from rfl]
  tauto

theorem isAsciiAlpha_asciiLower {c : Char} (h : isAsciiAlpha c = true) :
    isAsciiAlpha (asciiLower c) = true := by
  rw [isAsciiAlpha_iff] at h ⊢
  rw [asciiLower_toNat]
  split <;> omega

theorem isSchemeChar_asciiLower {c : Char} (h : isSchemeChar c = true) :
    isSchemeChar (asciiLower c) = true := by
  rw [isSchemeChar_iff] at h ⊢
  rw [asciiLower_toNat]
  split <;> omega

theorem asciiLower_ne_colon {c : Char} (h : isSchemeChar c = true) :
    asciiLower c ≠ ':' := by
  rw [isSchemeChar_iff] at h
  apply char_ne_of_toNat_ne
  rw [asciiLower_toNat, show (':' : Char).toNat = 58 from rfl]
  split <;> omega

/-! ## Evaluation helpers for the split and match primitives -/

theorem takeWhile_eq_self_of_all {p : Char → Bool} {l : List Char}
    (h : ∀ c ∈ l, p c = true) : l.takeWhile p = l := by
  induction l with
  | nil => rfl
  | cons c t ih =>
    rw [List.takeWhile_cons_of_pos (h c (by simp))]
    rw [ih (fun x hx => h x (by simp [hx]))]

theorem dropWhile_eq_nil_of_all {p : Char → Bool} {l : List Char}
    (h : ∀ c ∈ l, p c = true) : l.dropWhile p = [] := by
  have h2 := List.takeWhile_append_dropWhile (p := p) (l := l)
  rw [takeWhile_eq_self_of_all h] at h2
  have : l ++ l.dropWhile p = l ++ [] := by rw [List.append_nil]; exact h2
  exact List.append_cancel_left this

theorem splitParams_of_no_semi {p : List Char} (h : ';' ∉ p) :
    splitParams p = (p, []) := by
  unfold splitParams
  have hls : ∀ c ∈ (p.reverse.takeWhile (fun c => c != '/')).reverse,
      (c != ';') = true := by
    intro c hc
    have h1 : c ∈ p.reverse.takeWhile (fun c => c != '/') := List.mem_reverse.mp hc
    have h2 : c ∈ p := List.mem_reverse.mp ((List.takeWhile_prefix _).subset h1)
    simp only [bne_iff_ne, ne_eq]
    rintro rfl
    exact h h2
  dsimp only
  rw [takeWhile_eq_self_of_all hls]
  rw [if_neg (lt_irrefl _)]

theorem splitOnceAt_of_not_mem {stop : Char} {s : List Char}
    (h : ∀ c ∈ s, (c != stop) = true) : splitOnceAt stop s = (s, []) := by
  unfold splitOnceAt
  dsimp only
  rw [takeWhile_eq_self_of_all h]
  rw [if_neg (lt_irrefl _)]

theorem getLast?_append_right {A tok : List Char} (h : tok ≠ []) :
    (A ++ tok).getLast? = tok.getLast? := by
  rw [List.getLast?_append]
  cases htok : tok.getLast? with
  | none => exact absurd (List.getLast?_eq_none_iff.mp htok) h
  | some a => rfl

theorem ne_suffix_of_getLast {s u : List Char} {a b : Char}
    (hs : s.getLast? = some a) (hu : u.getLast? = some b) (hab : a ≠ b) :
    ¬ s <:+ u := by
  rintro ⟨t, rfl⟩
  rw [List.getLast?_append, hs] at hu
  simp only [Option.or_some, Option.some.injEq] at hu
  exact hab hu

/-! ## Stripping is the identity on the constructed URLs of the claims -/

theorem not_content_suffix_records {id : List Char}
    (hid : ∀ c ∈ id, c ≠ '/') (hne : id ≠ []) (hc : id ≠ "content".data) :
    ¬ "/content".data <:+
      ("https://archive.materialscloud.org/records/".data ++ id) := by
  apply not_suffix_append_excluded (by decide) hid
  intro j h1 h8 htake
  rw [show ("/content".data.length) = 8 from by decide] at h8
  interval_cases j
  · exact fun hdrop => hc (by rw [← hdrop]; decide)
  · exact absurd htake (by rw [← List.isSuffixOf_iff_suffix]; decide)
  · exact absurd htake (by rw [← List.isSuffixOf_iff_suffix]; decide)
  · exact absurd htake (by rw [← List.isSuffixOf_iff_suffix]; decide)
  · exact absurd htake (by rw [← List.isSuffixOf_iff_suffix]; decide)
  · exact absurd htake (by rw [← List.isSuffixOf_iff_suffix]; decide)
  · exact absurd htake (by rw [← List.isSuffixOf_iff_suffix]; decide)
  · exact fun hdrop => hne (by rw [← hdrop]; decide)

theorem not_download_suffix_records {id : List Char}
    (hid : ∀ c ∈ id, c ≠ '/') (hne : id ≠ []) (hd : id ≠ "download".data) :
    ¬ "/download".data <:+
      ("https://archive.materialscloud.org/records/".data ++ id) := by
  apply not_suffix_append_excluded (by decide) hid
  intro j h1 h9 htake
  rw [show ("/download".data.length) = 9 from by decide] at h9
  interval_cases j
  · exact fun hdrop => hd (by rw [← hdrop]; decide)
  · exact absurd htake (by rw [← List.isSuffixOf_iff_suffix]; decide)
  · exact absurd htake (by rw [← List.isSuffixOf_iff_suffix]; decide)
  · exact absurd htake (by rw [← List.isSuffixOf_iff_suffix]; decide)
  · exact absurd htake (by rw [← List.isSuffixOf_iff_suffix]; decide)
  · exact absurd htake (by rw [← List.isSuffixOf_iff_suffix]; decide)
  · exact absurd htake (by rw [← List.isSuffixOf_iff_suffix]; decide)
  · exact absurd htake (by rw [← List.isSuffixOf_iff_suffix]; decide)
  · exact fun hdrop => hne (by rw [← hdrop]; decide)

theorem not_content_suffix_record {id : List Char}
    (hid : ∀ c ∈ id, c ≠ '/') (hne : id ≠ []) (hc : id ≠ "content".data) :
    ¬ "/content".data <:+
      ("https://archive.materialscloud.org/record/".data ++ id) := by
  apply not_suffix_append_excluded (by decide) hid
  intro j h1 h8 htake
  rw [show ("/content".data.length) = 8 from by decide] at h8
  interval_cases j
  · exact fun hdrop => hc (by rw [← hdrop]; decide)
  · exact absurd htake (by rw [← List.isSuffixOf_iff_suffix]; decide)
  · exact absurd htake (by rw [← List.isSuffixOf_iff_suffix]; decide)
  · exact absurd htake (by rw [← List.isSuffixOf_iff_suffix]; decide)
  · exact absurd htake (by rw [← List.isSuffixOf_iff_suffix]; decide)
  · exact absurd htake (by rw [← List.isSuffixOf_iff_suffix]; decide)
  · exact absurd htake (by rw [← List.isSuffixOf_iff_suffix]; decide)
  · exact fun hdrop => hne (by rw [← hdrop]; decide)

theorem not_download_suffix_record {id : List Char}
    (hid : ∀ c ∈ id, c ≠ '/') (hne : id ≠ []) (hd : id ≠ "download".data) :
    ¬ "/download".data <:+
      ("https://archive.materialscloud.org/record/".data ++ id) := by
  apply not_suffix_append_excluded (by decide) hid
  intro j h1 h9 htake
  rw [show ("/download".data.length) = 9 from by decide] at h9
  interval_cases j
  · exact fun hdrop => hd (by rw [← hdrop]; decide)
  · exact absurd htake (by rw [← List.isSuffixOf_iff_suffix]; decide)
  · exact absurd htake (by rw [← List.isSuffixOf_iff_suffix]; decide)
  · exact absurd htake (by rw [← List.isSuffixOf_iff_suffix]; decide)
  · exact absurd htake (by rw [← List.isSuffixOf_iff_suffix]; decide)
  · exact absurd htake (by rw [← List.isSuffixOf_iff_suffix]; decide)
  · exact absurd htake (by rw [← List.isSuffixOf_iff_suffix]; decide)
  · exact absurd htake (by rw [← List.isSuffixOf_iff_suffix]; decide)
  · exact fun hdrop => hne (by rw [← hdrop]; decide)

/-- The `/files/{seg}` tail cannot end with `/content`: the seven characters
before the segment are the literal `/files/`. -/
theorem not_content_suffix_files {A seg : List Char}
    (hseg : ∀ c ∈ seg, c ≠ '/') (hne : seg ≠ []) (hc : seg ≠ "content".data) :
    ¬ "/content".data <:+ ((A ++ "/files/".data) ++ seg) := by
  apply not_suffix_append_excluded (by decide) hseg
  intro j h1 h8 htake
  rw [show ("/content".data.length) = 8 from by decide] at h8
  interval_cases j
  · exact fun hdrop => hc (by rw [← hdrop]; decide)
  all_goals first
    | (exact fun hdrop => hne (by rw [← hdrop]; decide))
    | (exfalso
       have hle := suffix_split_le htake (by decide)
       rw [← List.isSuffixOf_iff_suffix] at hle
       revert hle
       decide)

theorem not_download_suffix_files {A seg : List Char}
    (hseg : ∀ c ∈ seg, c ≠ '/') (hne : seg ≠ []) (hd : seg ≠ "download".data) :
    ¬ "/download".data <:+ ((A ++ "/files/".data) ++ seg) := by
  apply not_suffix_append_excluded (by decide) hseg
  intro j h1 h9 htake
  rw [show ("/download".data.length) = 9 from by decide] at h9
  interval_cases j
  · exact fun hdrop => hd (by rw [← hdrop]; decide)
  · exact absurd htake (by
      intro hs
      have hle := suffix_split_le hs (by decide)
      rw [← List.isSuffixOf_iff_suffix] at hle
      revert hle; decide)
  · exact absurd htake (by
      intro hs
      have hle := suffix_split_le hs (by decide)
      rw [← List.isSuffixOf_iff_suffix] at hle
      revert hle; decide)
  · exact absurd htake (by
      intro hs
      have hle := suffix_split_le hs (by decide)
      rw [← List.isSuffixOf_iff_suffix] at hle
      revert hle; decide)
  · exact absurd htake (by
      intro hs
      have hle := suffix_split_le hs (by decide)
      rw [← List.isSuffixOf_iff_suffix] at hle
      revert hle; decide)
  · exact absurd htake (by
      intro hs
      have hle := suffix_split_le hs (by decide)
      rw [← List.isSuffixOf_iff_suffix] at hle
      revert hle; decide)
  · exact absurd htake (by
      intro hs
      have hle := suffix_split_le hs (by decide)
      rw [← List.isSuffixOf_iff_suffix] at hle
      revert hle; decide)
  · exact absurd htake (by
      intro hs
      obtain ⟨-, heq⟩ := suffix_split_gt hs (by decide)
      revert heq; decide)
  · exact fun hdrop => hne (by rw [← hdrop]; decide)

/-- No `?`-carrying download suffix can end a `?`-free string. -/
theorem not_q_suffixes {u : List Char} (hq : '?' ∉ u) :
    ¬ "?download=1".data <:+ u ∧ ¬ "?dl=1".data <:+ u :=
  ⟨not_suffix_of_mem_absent (by decide) hq, not_suffix_of_mem_absent (by decide) hq⟩

/-- The whole strip pipeline of `normalize_archive_url` is the identity when
no whitespace surrounds the URL, no download suffix ends it, it is
`?`-free, and it does not end in `/`. -/
theorem strip_stage_eq_self {u : List Char}
    (hhead : ∀ c ∈ u.head?, isPySpace c = false)
    (hlast : ∀ c ∈ u.getLast?, isPySpace c = false ∧ c ≠ '/')
    (h1 : ¬ "/content".data <:+ u) (h2 : ¬ "/download".data <:+ u)
    (hq : '?' ∉ u) :
    rstripChars ['/'] (stripSuffixes (pstrip u)) = u := by
  rw [pstrip_eq_self hhead (fun c hc => (hlast c hc).1)]
  rw [stripSuffixes_eq_self h1 h2 (not_q_suffixes hq).1 (not_q_suffixes hq).2]
  apply rstripChars_eq_self
  intro c hc
  simp only [List.contains_cons, List.contains_nil, Bool.or_false, beq_eq_false_iff_ne, ne_eq]
  exact fun he => (hlast c hc).2 (by rw [he])

theorem head_stop {p : Char → Bool} {d : Char} {X : List Char} (hp : p d = false) :
    ∀ c ∈ ((d :: X) : List Char).head?, p c = false := by
  intro c hc
  simp only [List.head?_cons, Option.mem_def, Option.some.injEq] at hc
  subst hc
  exact hp

theorem head_stop_append {p : Char → Bool} {d : Char} {Y Z : List Char}
    (hp : p d = false) : ∀ c ∈ ((d :: Y) ++ Z : List Char).head?, p c = false := by
  intro c hc
  simp only [List.cons_append, List.head?_cons, Option.mem_def, Option.some.injEq] at hc
  subst hc
  exact hp

/-! ## Evaluation of the path matchers on the claims' path shapes -/

theorem matchApi_on_records (X : List Char) :
    matchApi ("/records/".data ++ X) = none := rfl

theorem matchApi_on_record (X : List Char) :
    matchApi ("/record/".data ++ X) = none := rfl

theorem matchOldRecord_on_records (X : List Char) :
    matchOldRecord ("/records/".data ++ X) = none := rfl

theorem matchCanonical_on_record (X : List Char) :
    matchCanonical ("/record/".data ++ X) = false := rfl

theorem matchOldRecord_on_record {id : List Char}
    (hid : ∀ c ∈ id, (c != '/' && c != '?') = true) (hne : id ≠ []) :
    matchOldRecord ("/record/".data ++ id) = some id := by
  unfold matchOldRecord
  rw [chopPre_append]
  dsimp only
  rw [takeWhile_eq_self_of_all hid]
  rw [if_neg hne]

theorem matchRecordsOnly_on_records {id : List Char}
    (hid : ∀ c ∈ id, (c != '/' && c != '?') = true) (hne : id ≠ []) :
    matchRecordsOnly ("/records/".data ++ id) = some id := by
  unfold matchRecordsOnly
  rw [chopPre_append]
  dsimp only
  rw [takeWhile_eq_self_of_all hid, dropWhile_eq_nil_of_all hid]
  rw [if_neg hne, if_pos (Or.inl rfl)]

theorem matchCanonical_on_records_only {id : List Char}
    (hid : ∀ c ∈ id, (c != '/') = true) :
    matchCanonical ("/records/".data ++ id) = false := by
  unfold matchCanonical
  rw [chopPre_append]
  dsimp only
  rw [takeWhile_eq_self_of_all hid, dropWhile_eq_nil_of_all hid]
  split <;> rfl

theorem matchCanonical_eval {id seg : List Char}
    (hid : ∀ c ∈ id, (c != '/') = true) (hidne : id ≠ []) :
    matchCanonical ("/records/".data ++ (id ++ ("/files/".data ++ seg))) =
      (decide (7 ≤ seg.length) && seg.all (fun c => c != '/') &&
        ".aiida".data.isSuffixOf seg) := by
  unfold matchCanonical
  rw [chopPre_append]
  dsimp only
  rw [takeWhile_append_stop hid (head_stop_append (by decide))]
  rw [dropWhile_append_stop hid (head_stop_append (by decide))]
  rw [if_neg hidne]
  rw [chopPre_append]

theorem matchRecordsFiles_eval {id seg : List Char}
    (hid : ∀ c ∈ id, (c != '/') = true) (hidne : id ≠ [])
    (hseg : ∀ c ∈ seg, (c != '/' && c != '?') = true) (hsegne : seg ≠ []) :
    matchRecordsFiles ("/records/".data ++ (id ++ ("/files/".data ++ seg))) =
      some (id, seg) := by
  unfold matchRecordsFiles
  rw [chopPre_append]
  dsimp only
  rw [takeWhile_append_stop hid (head_stop_append (by decide))]
  rw [dropWhile_append_stop hid (head_stop_append (by decide))]
  rw [if_neg hidne]
  rw [chopPre_append]
  dsimp only
  rw [takeWhile_eq_self_of_all hseg]
  rw [if_neg hsegne]

theorem matchRecordsOnly_on_files {id seg : List Char}
    (hid : ∀ c ∈ id, (c != '/' && c != '?') = true) (hidne : id ≠ []) :
    matchRecordsOnly ("/records/".data ++ (id ++ ("/files/".data ++ seg))) =
      none := by
  unfold matchRecordsOnly
  rw [chopPre_append]
  dsimp only
  rw [takeWhile_append_stop hid (head_stop_append (by decide))]
  rw [dropWhile_append_stop hid (head_stop_append (by decide))]
  rw [if_neg hidne]
  rw [if_neg]
  rintro (h | h)
  · exact absurd h (by simp)
  · rw [show ("/files/".data ++ seg) = '/' :: ("files/".data ++ seg) from rfl] at h
    simp at h

/-! ## Evaluation of `urlparse` on the claims' URL shapes -/

theorem splitScheme_https (R : List Char) :
    splitScheme ("https".data ++ ':' :: R) = ("https".data, R) := by
  unfold splitScheme
  dsimp only
  rw [takeWhile_append_stop (by decide) (head_stop (by decide))]
  rw [if_pos ⟨by simp [List.length_append], by decide, by decide, by decide⟩]
  simp only [Prod.mk.injEq]
  exact ⟨by decide, rfl⟩

theorem urlparseE_mca (rest : List Char)
    (hq : ∀ c ∈ rest, (c != '?') = true)
    (hh : ∀ c ∈ rest, (c != '#') = true)
    (hsemi : ';' ∉ ('/' :: rest : List Char)) :
    urlparseE ("https".data ++ ':' ::
        ('/' :: '/' :: ("archive.materialscloud.org".data ++ '/' :: rest))) =
      some ⟨"https".data, "archive.materialscloud.org".data, '/' :: rest,
        [], [], []⟩ := by
  unfold urlparseE
  rw [splitScheme_https]
  dsimp only
  rw [if_pos (show List.take 2
      ('/' :: '/' :: ("archive.materialscloud.org".data ++ '/' :: rest)) =
      ['/', '/'] from rfl)]
  rw [show List.drop 2
      ('/' :: '/' :: ("archive.materialscloud.org".data ++ '/' :: rest)) =
      "archive.materialscloud.org".data ++ '/' :: rest from rfl]
  rw [takeWhile_append_stop (by decide) (head_stop (by decide))]
  rw [dropWhile_append_stop (by decide) (head_stop (by decide))]
  dsimp only
  rw [if_neg (by decide)]
  have hfr : ∀ c ∈ ('/' :: rest : List Char), (c != '#') = true := by
    intro c hc
    rcases List.mem_cons.mp hc with rfl | hc
    · decide
    · exact hh c hc
  have hqu : ∀ c ∈ ('/' :: rest : List Char), (c != '?') = true := by
    intro c hc
    rcases List.mem_cons.mp hc with rfl | hc
    · decide
    · exact hq c hc
  rw [splitOnceAt_of_not_mem hfr]
  dsimp only
  rw [splitOnceAt_of_not_mem hqu]
  dsimp only
  rw [splitParams_of_no_semi hsemi]

/-! ## The query-stripping retry -/

theorem s2_mem {v : List Char} {c : Char}
    (h : c ∈ rstripChars ['/'] (stripSuffixes (pstrip v))) : c ∈ v :=
  pstrip_mem (stripSuffixes_mem (rstripChars_mem h))

set_option maxHeartbeats 1000000 in
/-- Inversion of the retry branch: the retry argument is the stripped url
with its query removed, and the guard saw a `?` in the stripped url. -/
theorem normalizeStep_inr {u : List Char} {sc : List Char × List Char}
    (h : normalizeStep u = .inr sc) :
    sc.2 = sc.1.takeWhile (fun c => c != '?') ∧
    sc.1 = rstripChars ['/'] (stripSuffixes (pstrip u)) ∧
    sc.1.contains '?' = true := by
  unfold normalizeStep at h
  split at h
  · simp at h
  · dsimp only at h
    repeat' split at h
    all_goals first
      | (exfalso; simp at h; done)
      | (simp only [Sum.inr.injEq] at h; obtain rfl := h;
         exact ⟨rfl, rfl, by assumption⟩)

/-- A query-free input can never take the retry branch. -/
theorem normalizeStep_ne_inr_of_no_q {v : List Char} (hq : '?' ∉ v)
    (sc : List Char × List Char) : normalizeStep v ≠ .inr sc := by
  intro h
  obtain ⟨-, hs1, hcont⟩ := normalizeStep_inr h
  have hmem : '?' ∈ sc.1 := by
    obtain ⟨x, hx, hbeq⟩ := List.contains_iff_exists_mem_beq.mp hcont
    rwa [show x = '?' from (by simpa using hbeq : '?' = x).symm] at hx
  exact hq (s2_mem (hs1 ▸ hmem))

set_option maxHeartbeats 1000000 in
/-- No `return` path of the function body carries the fuel-exhaustion
marker. -/
theorem normalizeStep_inl_no_retry {u : List Char} {r : Option (List Char × NormOutcome)}
    (h : normalizeStep u = .inl r) :
    ∀ v, r ≠ some (v, NormOutcome.queryStripRetry) := by
  unfold normalizeStep at h
  split at h
  · simp only [Sum.inl.injEq] at h; subst h; intro v; simp
  · dsimp only at h
    repeat' split at h
    all_goals first
      | (exfalso; simp at h; done)
      | (simp only [Sum.inl.injEq] at h; subst h; intro v; simp)

theorem normalizeGo_fuel_of_no_q {v : List Char} (hq : '?' ∉ v) (k m : Nat) :
    normalizeGo k v = normalizeGo m v := by
  conv_lhs => rw [normalizeGo]
  conv_rhs => rw [normalizeGo]
  cases hs : normalizeStep v with
  | inl r => simp only [hs]
  | inr sc => exact absurd hs (normalizeStep_ne_inr_of_no_q hq sc)

/-- The retry argument never contains a `?`. -/
theorem retry_arg_no_q {u : List Char} {sc : List Char × List Char}
    (h : normalizeStep u = .inr sc) : '?' ∉ sc.2 := by
  obtain ⟨hc, -, -⟩ := normalizeStep_inr h
  rw [hc]
  intro hmem
  have := List.mem_takeWhile_imp hmem
  simp at this

/-! ## Claims -/

/-- The end-to-end example input of the specification, verbatim. -/
def c1_input : List Char :=
  "https://archive.example.org/api/records/yf0rj-w3r97/files/data%20set.aiida/content".data

/-- C1 (counterexample): on the spec's host `archive.example.org` the code
does NOT produce the claimed canonical URL — `normalize_archive_url`
requires `materialscloud.org` in the netloc, so it takes the untrusted-host
early return and hands back the suffix-stripped input unchanged. -/
theorem c1_counterexample :
    normalize_archive_url c1_input =
      some ("https://archive.example.org/api/records/yf0rj-w3r97/files/data%20set.aiida".data,
        NormOutcome.untrustedHost) ∧
    (normalize_archive_url c1_input).map Prod.fst ≠
      some "https://archive.example.org/records/yf0rj-w3r97/files/data set.aiida".data :=
  ⟨by decide, by decide⟩

/-- C1 (amended): with the host the code actually trusts,
`archive.materialscloud.org`, the example normalizes exactly as the claim
states: the trailing `/content` is stripped, the `/api/` prefix is
rewritten to the public form, and the filename is percent-decoded, giving
record id `yf0rj-w3r97` and filename `data set.aiida`. -/
theorem c1_amended :
    normalize_archive_url
        "https://archive.materialscloud.org/api/records/yf0rj-w3r97/files/data%20set.aiida/content".data =
      some ("https://archive.materialscloud.org/records/yf0rj-w3r97/files/data set.aiida".data,
        NormOutcome.apiRewritten "yf0rj-w3r97".data "data set.aiida".data) := by
  decide

/-- C2 (code bug): the suffix-stripping step uses Python `str.rstrip`,
which deletes by character set, so it removes more than the matched
`/content` suffix: the prefix `.../record/one` is mangled to `.../record`
instead of being left character-for-character unchanged. -/
theorem c2_code_bug :
    stripSuffixes "https://archive.materialscloud.org/record/one/content".data =
      "https://archive.materialscloud.org/record".data ∧
    stripSuffixes "https://archive.materialscloud.org/record/one/content".data ≠
      "https://archive.materialscloud.org/record/one".data :=
  ⟨by decide, by decide⟩

/-- C3: the session-classification truth table.  With no persisted record the
classification is `new_session`; with a persisted record it is
`same_session`, `url_changed` or `session_conflict` according to whether the
persisted identity and archive url agree with the current ones; the
classification is always exactly one of the four strings. -/
theorem c3_truth_table (w : World) (sid : String) (curUrl : Option String) :
    (load_current_session w = .ok none →
      check_session_conflict w sid curUrl = (w, .ok ("new_session", none))) ∧
    (∀ r, load_current_session w = .ok (some r) → r.session_id = sid →
      r.archive_url = curUrl →
      check_session_conflict w sid curUrl = (w, .ok ("same_session", some r))) ∧
    (∀ r, load_current_session w = .ok (some r) → r.session_id = sid →
      r.archive_url ≠ curUrl →
      check_session_conflict w sid curUrl = (w, .ok ("url_changed", some r))) ∧
    (∀ r, load_current_session w = .ok (some r) → r.session_id ≠ sid →
      check_session_conflict w sid curUrl = (w, .ok ("session_conflict", some r))) := by
  refine ⟨?_, ?_, ?_, ?_⟩ <;> intros <;> simp_all [check_session_conflict]

/-- Witness for `c3_truth_table` at concrete inputs: a persisted record with
the same identity but a different url classifies as `url_changed`. -/
theorem c3_truth_table_witness :
    check_session_conflict ⟨.parsed ⟨"id1", some "u1", "t0", 7⟩, none, none⟩
        "id1" (some "u2") =
      (⟨.parsed ⟨"id1", some "u1", "t0", 7⟩, none, none⟩,
        .ok ("url_changed", some ⟨"id1", some "u1", "t0", 7⟩)) :=
  (c3_truth_table ⟨.parsed ⟨"id1", some "u1", "t0", 7⟩, none, none⟩ "id1"
      (some "u2")).2.2.1 ⟨"id1", some "u1", "t0", 7⟩ rfl rfl (by decide)

/-- C4 (counterexample): a records-only URL whose id is the literal string
`content` is NOT classified as ambiguous: the rstrip-based suffix stripping
first mangles the URL to `.../records`, which then matches no pattern at
all, ending in the unrecognized-format warning. -/
theorem c4_counterexample :
    normalize_archive_url "https://archive.materialscloud.org/records/content".data =
      some ("https://archive.materialscloud.org/records".data, NormOutcome.unrecognized) := by
  decide

set_option maxHeartbeats 1000000 in
/-- C4 (amended): for every record id that is nonempty, free of the URL
metacharacters `/`, `?`, `#`, `;` and whitespace, and not literally one of
the stripped suffix words `content` or `download`, both the records-only
form `/records/{id}` and the legacy singular form `/record/{id}` on the
trusted host are classified as ambiguous-record, carrying the id, with the
URL returned unchanged — never accepted as canonical. -/
theorem c4_amended (id : List Char) (hne : id ≠ [])
    (hch : ∀ c ∈ id, c ≠ '/' ∧ c ≠ '?' ∧ c ≠ '#' ∧ c ≠ ';' ∧ isPySpace c = false)
    (hc : id ≠ "content".data) (hd : id ≠ "download".data) :
    normalize_archive_url
        ("https://archive.materialscloud.org/records/".data ++ id) =
      some ("https://archive.materialscloud.org/records/".data ++ id,
        NormOutcome.recordsOnlyAmbiguous id) ∧
    normalize_archive_url
        ("https://archive.materialscloud.org/record/".data ++ id) =
      some ("https://archive.materialscloud.org/record/".data ++ id,
        NormOutcome.oldRecordAmbiguous id) := by
  have hid1 : ∀ c ∈ id, c ≠ '/' := fun c m => (hch c m).1
  have hid2 : ∀ c ∈ id, (c != '/' && c != '?') = true := by
    intro c m
    simp only [Bool.and_eq_true, bne_iff_ne, ne_eq]
    exact ⟨(hch c m).1, (hch c m).2.1⟩
  have hid3 : ∀ c ∈ id, (c != '/') = true := by
    intro c m
    simp only [bne_iff_ne, ne_eq]
    exact (hch c m).1
  have hlast : ∀ c ∈ id.getLast?, isPySpace c = false ∧ c ≠ '/' := by
    intro c hcl
    have hm : c ∈ id := List.mem_of_getLast?_eq_some hcl
    exact ⟨(hch c hm).2.2.2.2, (hch c hm).1⟩
  have hqrest : ∀ Y : List Char, (∀ c ∈ Y, c ≠ '?') → ∀ c ∈ Y ++ id, (c != '?') = true := by
    intro Y hY c m
    simp only [bne_iff_ne, ne_eq]
    rcases List.mem_append.mp m with m | m
    · exact hY c m
    · exact (hch c m).2.1
  have hhrest : ∀ Y : List Char, (∀ c ∈ Y, c ≠ '#') → ∀ c ∈ Y ++ id, (c != '#') = true := by
    intro Y hY c m
    simp only [bne_iff_ne, ne_eq]
    rcases List.mem_append.mp m with m | m
    · exact hY c m
    · exact (hch c m).2.2.1
  constructor
  · -- records-only form
    set u := "https://archive.materialscloud.org/records/".data ++ id with hu
    have hq : '?' ∉ u := by
      intro hm
      rcases List.mem_append.mp hm with hm | hm
      · revert hm; decide
      · exact (hch '?' hm).2.1 rfl
    have hp : pstrip u = u := by
      apply pstrip_eq_self (head_stop_append (by decide))
      rw [getLast?_append_right hne]
      exact fun c hc => (hlast c hc).1
    have hstrip : rstripChars ['/'] (stripSuffixes (pstrip u)) = u :=
      strip_stage_eq_self (head_stop_append (by decide))
        (by rw [getLast?_append_right hne]; exact hlast)
        (not_content_suffix_records hid1 hne hc)
        (not_download_suffix_records hid1 hne hd) hq
    have hparse : urlparseE u =
        some ⟨"https".data, "archive.materialscloud.org".data,
          "/records/".data ++ id, [], [], []⟩ := by
      rw [show u = "https".data ++ ':' ::
        ('/' :: '/' :: ("archive.materialscloud.org".data ++ '/' ::
          ("records/".data ++ id))) from rfl]
      exact urlparseE_mca ("records/".data ++ id)
        (hqrest "records/".data (by decide))
        (hhrest "records/".data (by decide))
        (by
          intro hm
          rcases List.mem_cons.mp hm with hm | hm
          · exact absurd hm (by decide)
          · rcases List.mem_append.mp hm with hm | hm
            · revert hm; decide
            · exact (hch ';' hm).2.2.2.1 rfl)
    rw [hp] at hstrip
    have hstep : normalizeStep u =
        Sum.inl (some (u, NormOutcome.recordsOnlyAmbiguous id)) := by
      unfold normalizeStep
      rw [hp]
      rw [if_neg (show ¬ u = [] from by
        rw [show u = 'h' :: ("ttps://archive.materialscloud.org/records/".data ++ id)
          from rfl]
        simp)]
      dsimp only
      rw [hstrip, hparse]
      dsimp only
      rw [if_neg (show ¬ (containsSub expectedHost
        "archive.materialscloud.org".data = false) from by decide)]
      rw [matchApi_on_records]
      dsimp only
      rw [matchCanonical_on_records_only hid3]
      rw [if_neg (show ¬ (false = true) from by simp)]
      rw [matchOldRecord_on_records]
      dsimp only
      rw [matchRecordsOnly_on_records hid2 hne]
    unfold normalize_archive_url
    rw [normalizeGo, hstep]
  · -- legacy singular form
    set u := "https://archive.materialscloud.org/record/".data ++ id with hu
    have hq : '?' ∉ u := by
      intro hm
      rcases List.mem_append.mp hm with hm | hm
      · revert hm; decide
      · exact (hch '?' hm).2.1 rfl
    have hp : pstrip u = u := by
      apply pstrip_eq_self (head_stop_append (by decide))
      rw [getLast?_append_right hne]
      exact fun c hc => (hlast c hc).1
    have hstrip : rstripChars ['/'] (stripSuffixes (pstrip u)) = u :=
      strip_stage_eq_self (head_stop_append (by decide))
        (by rw [getLast?_append_right hne]; exact hlast)
        (not_content_suffix_record hid1 hne hc)
        (not_download_suffix_record hid1 hne hd) hq
    have hparse : urlparseE u =
        some ⟨"https".data, "archive.materialscloud.org".data,
          "/record/".data ++ id, [], [], []⟩ := by
      rw [show u = "https".data ++ ':' ::
        ('/' :: '/' :: ("archive.materialscloud.org".data ++ '/' ::
          ("record/".data ++ id))) from rfl]
      exact urlparseE_mca ("record/".data ++ id)
        (hqrest "record/".data (by decide))
        (hhrest "record/".data (by decide))
        (by
          intro hm
          rcases List.mem_cons.mp hm with hm | hm
          · exact absurd hm (by decide)
          · rcases List.mem_append.mp hm with hm | hm
            · revert hm; decide
            · exact (hch ';' hm).2.2.2.1 rfl)
    rw [hp] at hstrip
    have hstep : normalizeStep u =
        Sum.inl (some (u, NormOutcome.oldRecordAmbiguous id)) := by
      unfold normalizeStep
      rw [hp]
      rw [if_neg (show ¬ u = [] from by
        rw [show u = 'h' :: ("ttps://archive.materialscloud.org/record/".data ++ id)
          from rfl]
        simp)]
      dsimp only
      rw [hstrip, hparse]
      dsimp only
      rw [if_neg (show ¬ (containsSub expectedHost
        "archive.materialscloud.org".data = false) from by decide)]
      rw [matchApi_on_record]
      dsimp only
      rw [matchCanonical_on_record]
      rw [if_neg (show ¬ (false = true) from by simp)]
      rw [matchOldRecord_on_record hid2 hne]
    unfold normalize_archive_url
    rw [normalizeGo, hstep]

/-- Witness for `c4_amended` at the concrete record id `abc`. -/
theorem c4_amended_witness :
    normalize_archive_url "https://archive.materialscloud.org/records/abc".data =
      some ("https://archive.materialscloud.org/records/abc".data,
        NormOutcome.recordsOnlyAmbiguous "abc".data) :=
  (c4_amended "abc".data (by decide) (by decide) (by decide) (by decide)).1

set_option maxHeartbeats 1000000 in
/-- C5 (amended): for every id and filename segment that are nonempty, free
of the URL metacharacters `/`, `?`, `#`, `;` and whitespace, with the
segment not literally `content` or `download`, and whose segment — raw and
percent-decoded alike — does not end in `.aiida`, the files-form URL on the
trusted host is rejected as wrong-file-type, carrying the percent-decoded
filename, with the URL returned unchanged — never accepted as canonical. -/
theorem c5_amended (id seg : List Char) (hidne : id ≠ []) (hsegne : seg ≠ [])
    (hch : ∀ c ∈ id, c ≠ '/' ∧ c ≠ '?' ∧ c ≠ '#' ∧ c ≠ ';' ∧ isPySpace c = false)
    (hsch : ∀ c ∈ seg, c ≠ '/' ∧ c ≠ '?' ∧ c ≠ '#' ∧ c ≠ ';' ∧ isPySpace c = false)
    (hc : seg ≠ "content".data) (hd : seg ≠ "download".data)
    (hraw : ¬ ".aiida".data <:+ seg)
    (hdec : ¬ ".aiida".data <:+ unquote seg) :
    normalize_archive_url
        ("https://archive.materialscloud.org/records/".data ++
          (id ++ ("/files/".data ++ seg))) =
      some ("https://archive.materialscloud.org/records/".data ++
          (id ++ ("/files/".data ++ seg)),
        NormOutcome.wrongFileType (unquote seg)) := by
  have hid3 : ∀ c ∈ id, (c != '/') = true := by
    intro c m
    simp only [bne_iff_ne, ne_eq]
    exact (hch c m).1
  have hid2 : ∀ c ∈ id, (c != '/' && c != '?') = true := by
    intro c m
    simp only [Bool.and_eq_true, bne_iff_ne, ne_eq]
    exact ⟨(hch c m).1, (hch c m).2.1⟩
  have hseg1 : ∀ c ∈ seg, c ≠ '/' := fun c m => (hsch c m).1
  have hseg2 : ∀ c ∈ seg, (c != '/' && c != '?') = true := by
    intro c m
    simp only [Bool.and_eq_true, bne_iff_ne, ne_eq]
    exact ⟨(hsch c m).1, (hsch c m).2.1⟩
  set u := "https://archive.materialscloud.org/records/".data ++
    (id ++ ("/files/".data ++ seg)) with hu
  have htail_ne : ("/files/".data ++ seg : List Char) ≠ [] := by simp
  have htail2_ne : (id ++ ("/files/".data ++ seg) : List Char) ≠ [] := by
    intro h
    exact htail_ne (List.append_eq_nil.mp h).2
  have hlastu : ∀ c ∈ u.getLast?, isPySpace c = false ∧ c ≠ '/' := by
    rw [hu, getLast?_append_right htail2_ne, getLast?_append_right htail_ne,
      getLast?_append_right hsegne]
    intro c hcl
    have hm : c ∈ seg := List.mem_of_getLast?_eq_some hcl
    exact ⟨(hsch c hm).2.2.2.2, (hsch c hm).1⟩
  have hq : '?' ∉ u := by
    intro hm
    rcases List.mem_append.mp hm with hm | hm
    · revert hm; decide
    · rcases List.mem_append.mp hm with hm | hm
      · exact (hch '?' hm).2.1 rfl
      · rcases List.mem_append.mp hm with hm | hm
        · revert hm; decide
        · exact (hsch '?' hm).2.1 rfl
  have hp : pstrip u = u := by
    apply pstrip_eq_self (head_stop_append (by decide))
    exact fun c hc => (hlastu c hc).1
  have hstrip : rstripChars ['/'] (stripSuffixes (pstrip u)) = u :=
    strip_stage_eq_self (head_stop_append (by decide)) hlastu
      (by
        rw [show u = (((("https://archive.materialscloud.org/records/".data ++ id) ++
          "/files/".data) ++ seg) : List Char) from by rw [hu]; simp [List.append_assoc]]
        exact not_content_suffix_files hseg1 hsegne hc)
      (by
        rw [show u = (((("https://archive.materialscloud.org/records/".data ++ id) ++
          "/files/".data) ++ seg) : List Char) from by rw [hu]; simp [List.append_assoc]]
        exact not_download_suffix_files hseg1 hsegne hd)
      hq
  have hmemtail : ∀ c, c ∈ ("records/".data ++ (id ++ ("/files/".data ++ seg)) : List Char) →
      c ∈ "records//files/".data ∨ c ∈ id ∨ c ∈ seg := by
    intro c hm
    rcases List.mem_append.mp hm with hm | hm
    · exact Or.inl ((by decide : ∀ x ∈ "records/".data, x ∈ "records//files/".data) c hm)
    · rcases List.mem_append.mp hm with hm | hm
      · right; left; exact hm
      · rcases List.mem_append.mp hm with hm | hm
        · exact Or.inl
            ((by decide : ∀ x ∈ "/files/".data, x ∈ "records//files/".data) c hm)
        · right; right; exact hm
  have hparse : urlparseE u =
      some ⟨"https".data, "archive.materialscloud.org".data,
        "/records/".data ++ (id ++ ("/files/".data ++ seg)), [], [], []⟩ := by
    rw [show u = "https".data ++ ':' ::
      ('/' :: '/' :: ("archive.materialscloud.org".data ++ '/' ::
        ("records/".data ++ (id ++ ("/files/".data ++ seg))))) from rfl]
    refine urlparseE_mca _ ?_ ?_ ?_
    · intro c hm
      simp only [bne_iff_ne, ne_eq]
      rcases hmemtail c hm with hm | hm | hm
      · exact (by decide : ∀ x ∈ "records//files/".data, ¬ x = '?') c hm
      · exact (hch c hm).2.1
      · exact (hsch c hm).2.1
    · intro c hm
      simp only [bne_iff_ne, ne_eq]
      rcases hmemtail c hm with hm | hm | hm
      · exact (by decide : ∀ x ∈ "records//files/".data, ¬ x = '#') c hm
      · exact (hch c hm).2.2.1
      · exact (hsch c hm).2.2.1
    · intro hm
      rcases List.mem_cons.mp hm with hm | hm
      · exact absurd hm (by decide)
      · rcases hmemtail ';' hm with hm | hm | hm
        · revert hm; decide
        · exact (hch ';' hm).2.2.2.1 rfl
        · exact (hsch ';' hm).2.2.2.1 rfl
  rw [hp] at hstrip
  have hsufraw : ".aiida".data.isSuffixOf seg = false :=
    Bool.eq_false_iff.mpr (fun h => hraw (List.isSuffixOf_iff_suffix.mp h))
  have hsufdec : ".aiida".data.isSuffixOf (unquote seg) = false :=
    Bool.eq_false_iff.mpr (fun h => hdec (List.isSuffixOf_iff_suffix.mp h))
  have hstep : normalizeStep u =
      Sum.inl (some (u, NormOutcome.wrongFileType (unquote seg))) := by
    unfold normalizeStep
    rw [hp]
    rw [if_neg (show ¬ u = [] from by
      rw [show u = 'h' :: ("ttps://archive.materialscloud.org/records/".data ++
        (id ++ ("/files/".data ++ seg))) from rfl]
      simp)]
    dsimp only
    rw [hstrip, hparse]
    dsimp only
    rw [if_neg (show ¬ (containsSub expectedHost
      "archive.materialscloud.org".data = false) from by decide)]
    rw [matchApi_on_records]
    dsimp only
    rw [matchCanonical_eval hid3 hidne]
    rw [hsufraw, Bool.and_false]
    rw [if_neg (show ¬ (false = true) from by simp)]
    rw [matchOldRecord_on_records]
    dsimp only
    rw [matchRecordsOnly_on_files hid2 hidne]
    dsimp only
    rw [matchRecordsFiles_eval hid3 hidne hseg2 hsegne]
    dsimp only
    rw [if_neg (show ¬ (".aiida".data.isSuffixOf (unquote seg) = true) from by
      rw [hsufdec]; simp)]
  unfold normalize_archive_url
  rw [normalizeGo, hstep]

/-- Witness for `c5_amended` at the concrete id `r1` and segment `x.txt`. -/
theorem c5_amended_witness :
    normalize_archive_url
        "https://archive.materialscloud.org/records/r1/files/x.txt".data =
      some ("https://archive.materialscloud.org/records/r1/files/x.txt".data,
        NormOutcome.wrongFileType "x.txt".data) :=
  c5_amended "r1".data "x.txt".data (by decide) (by decide) (by decide)
    (by decide) (by decide) (by decide)
    (by rw [← List.isSuffixOf_iff_suffix]; decide)
    (by rw [← List.isSuffixOf_iff_suffix]; decide)

/-- C5 (counterexample): a records/files URL whose filename segment is the
literal string `content` is NOT rejected as `WrongFileType`: the
rstrip-based suffix stripping first mangles the URL to `.../files`, which
then matches no pattern at all, ending in the unrecognized-format warning. -/
theorem c5_counterexample :
    normalize_archive_url "https://archive.materialscloud.org/records/r1/files/content".data =
      some ("https://archive.materialscloud.org/records/r1/files".data,
        NormOutcome.unrecognized) := by
  decide

/-- C6 (code bug): corrupt persisted state is NOT always degraded to a fresh
session.  The caught arm works as claimed: a session file that is UTF-8 text
but invalid JSON (or an `IOError` while reading) classifies as `new_session`
with no prior record, exactly like an absent file.  But the source catches
only `(json.JSONDecodeError, IOError)`: a session file whose bytes are not
valid UTF-8 makes `json.load` raise `UnicodeDecodeError` — a `ValueError`
matching neither caught class — which propagates through
`check_session_conflict` to the caller, so no classification is produced at
all, while the specification requires that corrupt or unreadable persisted
state never raise. -/
theorem c6_code_bug (wf sf : Option String) (sid : String)
    (curUrl : Option String) :
    check_session_conflict ⟨.badJson, wf, sf⟩ sid curUrl =
      (⟨.badJson, wf, sf⟩, .ok ("new_session", none)) ∧
    (check_session_conflict ⟨.badJson, wf, sf⟩ sid curUrl).2 =
      (check_session_conflict ⟨.absent, wf, sf⟩ sid curUrl).2 ∧
    (check_session_conflict ⟨.badEncoding, wf, sf⟩ sid curUrl).2 =
      .error PyError.unicodeDecodeError ∧
    ∀ res, (check_session_conflict ⟨.badEncoding, wf, sf⟩ sid curUrl).2 ≠
      .ok res :=
  ⟨rfl, rfl, rfl, fun _ h => Except.noConfusion h⟩

/-- C7 (counterexample): `get_archive_info` is NOT bounded by the code's own
truncation cap of 53 characters (50 plus the ellipsis): a URL whose
`/files/` segment is 60 characters long is echoed back whole. -/
theorem c7_counterexample :
    ¬ ((get_archive_info ("/files/".data ++ List.replicate 60 'a')).length ≤ 53) := by
  decide

set_option maxHeartbeats 1000000 in
/-! Length bounds for the `get_archive_info` pipeline. -/

theorem takeWhile_len_le (p : Char → Bool) (l : List Char) :
    (l.takeWhile p).length ≤ l.length :=
  (List.takeWhile_prefix p).length_le

theorem dropWhile_len_le (p : Char → Bool) (l : List Char) :
    (l.dropWhile p).length ≤ l.length :=
  (List.dropWhile_suffix p).length_le

theorem splitScheme_snd_len (u : List Char) :
    (splitScheme u).2.length ≤ u.length := by
  unfold splitScheme
  dsimp only
  split
  · simp
  · exact le_rfl

theorem splitOnceAt_fst_len (stop : Char) (s : List Char) :
    (splitOnceAt stop s).1.length ≤ s.length :=
  takeWhile_len_le _ s

theorem splitParams_fst_len (p : List Char) :
    (splitParams p).1.length ≤ p.length := by
  unfold splitParams
  dsimp only
  split
  · have h1 : (p.take (p.length -
        ((p.reverse.takeWhile (fun c => c != '/')).reverse).length)).length ≤
        p.length - ((p.reverse.takeWhile (fun c => c != '/')).reverse).length := by
      simp
    have h2 : (((p.reverse.takeWhile (fun c => c != '/')).reverse).takeWhile
        (fun c => c != ';')).length ≤
        ((p.reverse.takeWhile (fun c => c != '/')).reverse).length :=
      takeWhile_len_le _ _
    have h3 : ((p.reverse.takeWhile (fun c => c != '/')).reverse).length ≤ p.length := by
      rw [List.length_reverse]
      have := takeWhile_len_le (fun c => c != '/') p.reverse
      simpa using this
    simp only [List.length_append]
    omega
  · exact le_rfl

theorem pathChain_len (rest : List Char) :
    (splitParams (splitOnceAt '?' (splitOnceAt '#' rest).1).1).1.length ≤ rest.length :=
  le_trans (splitParams_fst_len _)
    (le_trans (splitOnceAt_fst_len _ _) (splitOnceAt_fst_len _ _))

theorem urlparseE_path_len {u : List Char} {p : UrlParts}
    (h : urlparseE u = some p) : p.path.length ≤ u.length := by
  unfold urlparseE at h
  dsimp only at h
  have hbase : (splitScheme u).2.length ≤ u.length := splitScheme_snd_len u
  split at h
  · try dsimp only at h
    split at h
    · exact absurd h (by simp)
    · simp only [Option.some.injEq] at h
      subst h
      dsimp only
      refine le_trans (pathChain_len _) ?_
      calc (((splitScheme u).2.drop 2).dropWhile netlocChar).length
          ≤ ((splitScheme u).2.drop 2).length := dropWhile_len_le _ _
        _ ≤ (splitScheme u).2.length := by simp
        _ ≤ u.length := hbase
  · try dsimp only at h
    split at h
    · exact absurd h (by simp)
    · simp only [Option.some.injEq] at h
      subst h
      dsimp only
      exact le_trans (pathChain_len _) hbase

theorem chopPre_len {p s r : List Char} (h : chopPre p s = some r) :
    r.length ≤ s.length := by
  rw [chopPre_eq_some h]
  simp

theorem searchFilesSeg_len : ∀ {path seg : List Char},
    searchFilesSeg path = some seg → seg.length ≤ path.length := by
  intro path
  induction path with
  | nil => intro seg h; simp [searchFilesSeg] at h
  | cons c t ih =>
    intro seg h
    rw [searchFilesSeg] at h
    split at h
    · next r hcp =>
      dsimp only at h
      split at h
      · exact (ih h).trans (by simp)
      · simp only [Option.some.injEq] at h
        subst h
        calc (r.takeWhile fun x => x != '/' && x != '?').length
            ≤ r.length := takeWhile_len_le _ _
          _ ≤ (c :: t).length := chopPre_len hcp
    · exact (ih h).trans (by simp)

theorem searchRecordsSlash_len : ∀ {path rid : List Char},
    searchRecordsSlash path = some rid → rid.length ≤ path.length := by
  intro path
  induction path with
  | nil => intro rid h; simp [searchRecordsSlash] at h
  | cons c t ih =>
    intro rid h
    rw [searchRecordsSlash] at h
    split at h
    · next r hcp =>
      dsimp only at h
      split at h
      · exact (ih h).trans (by simp)
      · split at h
        · exact (ih h).trans (by simp)
        · simp only [Option.some.injEq] at h
          subst h
          calc (r.takeWhile fun x => x != '/').length
              ≤ r.length := takeWhile_len_le _ _
            _ ≤ (c :: t).length := chopPre_len hcp
    · exact (ih h).trans (by simp)

theorem splitSlashAux_mem_len : ∀ (s acc l : List Char),
    l ∈ splitSlashAux acc s → l.length ≤ acc.length + s.length := by
  intro s
  induction s with
  | nil =>
    intro acc l h
    simp only [splitSlashAux, List.mem_singleton] at h
    subst h
    simp
  | cons c t ih =>
    intro acc l h
    rw [splitSlashAux] at h
    split at h
    · rcases List.mem_cons.mp h with rfl | h
      · simp only [List.length_reverse, List.length_cons]
        omega
      · have := ih [] l h
        simp only [List.length_nil, List.length_cons] at *
        omega
    · have := ih (c :: acc) l h
      simp only [List.length_cons] at *
      omega

theorem stripSlashes_len (s : List Char) : (stripSlashes s).length ≤ s.length := by
  unfold stripSlashes
  rw [List.length_reverse]
  calc ((s.dropWhile (fun c => c == '/')).reverse.dropWhile (fun c => c == '/')).length
      ≤ (s.dropWhile (fun c => c == '/')).reverse.length := dropWhile_len_le _ _
    _ = (s.dropWhile (fun c => c == '/')).length := List.length_reverse _
    _ ≤ s.length := dropWhile_len_le _ _

theorem truncUrl_len (u : List Char) : (truncUrl u).length ≤ u.length + 53 := by
  unfold truncUrl
  split
  · simp only [List.length_append, List.length_take, List.length_cons, List.length_nil]
    omega
  · omega

/-- C7 (amended): `get_archive_info` never raises and always returns a
string, but its length is bounded only linearly in the input — the
extracted-filename and last-path-segment branches echo input substrings
verbatim, and the fixed 53-character truncation applies only to the final
fallback.  The uniform bound is `2 * |input| + 53`. -/
theorem c7_amended (url : List Char) :
    (get_archive_info url).length ≤ 2 * url.length + 53 := by
  unfold get_archive_info
  split
  · simp [show ("None".data : List Char).length = 4 from by decide]
  · split
    · have := truncUrl_len url
      omega
    · next p hp =>
      have hpl : p.path.length ≤ url.length := urlparseE_path_len hp
      split
      · next seg hseg =>
        have hsl : seg.length ≤ p.path.length := searchFilesSeg_len hseg
        have huq : (unquote seg).length ≤ seg.length := unquote_len_le seg
        split
        · next rid hrid =>
          have hrl : rid.length ≤ p.path.length := searchRecordsSlash_len hrid
          simp only [List.length_append, List.length_cons, List.length_nil]
          omega
        · dsimp only
          omega
      · split
        · next lastPart hlp =>
          have hmem : lastPart ∈ splitSlash (stripSlashes p.path) :=
            List.mem_of_getLast?_eq_some hlp
          have := splitSlashAux_mem_len (stripSlashes p.path) [] lastPart hmem
          have := stripSlashes_len p.path
          simp only [List.length_nil] at *
          omega
        · have := truncUrl_len url
          omega

/-- C8 (counterexample): normalization is NOT idempotent.  The records-only
URL `.../records/content/` first normalizes (ambiguous-record branch) to
`.../records/content`; running the normalizer again rstrip-mangles that
string to `.../records`, a different string with a different outcome. -/
theorem c8_counterexample :
    normalize_archive_url "https://archive.materialscloud.org/records/content/".data =
      some ("https://archive.materialscloud.org/records/content".data,
        NormOutcome.recordsOnlyAmbiguous "content".data) ∧
    normalize_archive_url "https://archive.materialscloud.org/records/content".data ≠
      some ("https://archive.materialscloud.org/records/content".data,
        NormOutcome.recordsOnlyAmbiguous "content".data) :=
  ⟨by decide, by decide⟩

/-- C8 (amended): normalization IS idempotent on every run that ends in a
canonical URL.  Any URL of the exact canonical shape
`https://archive.materialscloud.org/records/{id}/files/{stem}.aiida` (id and
stem nonempty and free of `/`, `?`, `#`, `;` and whitespace) is a fixed
point: the normalizer accepts it unchanged via the already-canonical branch.
Hence whenever a first pass returns such a URL, a second pass over the first
pass's result returns the same URL, i.e.
`normalize(normalize(raw)) = normalize(raw)` up to the outcome label. -/
theorem c8_amended (id stem raw v : List Char) (o : NormOutcome)
    (hidne : id ≠ []) (hstemne : stem ≠ [])
    (hch : ∀ c ∈ id, c ≠ '/' ∧ c ≠ '?' ∧ c ≠ '#' ∧ c ≠ ';' ∧ isPySpace c = false)
    (hsch : ∀ c ∈ stem, c ≠ '/' ∧ c ≠ '?' ∧ c ≠ '#' ∧ c ≠ ';' ∧ isPySpace c = false)
    (hv : v = "https://archive.materialscloud.org/records/".data ++
        (id ++ ("/files/".data ++ (stem ++ ".aiida".data))))
    (hraw : normalize_archive_url raw = some (v, o)) :
    ((normalize_archive_url raw).bind fun r => normalize_archive_url r.1) =
      some (v, NormOutcome.alreadyCanonical) := by
  subst hv
  have hid3 : ∀ c ∈ id, (c != '/') = true := by
    intro c m
    simp only [bne_iff_ne, ne_eq]
    exact (hch c m).1
  have hsegall : ∀ c ∈ (stem ++ ".aiida".data : List Char),
      c ≠ '/' ∧ c ≠ '?' ∧ c ≠ '#' ∧ c ≠ ';' ∧ isPySpace c = false := by
    intro c hm
    rcases List.mem_append.mp hm with hm | hm
    · exact hsch c hm
    · exact (by decide : ∀ x ∈ (".aiida".data : List Char),
        x ≠ '/' ∧ x ≠ '?' ∧ x ≠ '#' ∧ x ≠ ';' ∧ isPySpace x = false) c hm
  have hseg1 : ∀ c ∈ (stem ++ ".aiida".data : List Char), c ≠ '/' :=
    fun c m => (hsegall c m).1
  have hsegne : (stem ++ ".aiida".data : List Char) ≠ [] := by simp
  have hlastseg : (stem ++ ".aiida".data : List Char).getLast? = some 'a' := by
    rw [getLast?_append_right (by decide)]
    decide
  have hc : (stem ++ ".aiida".data : List Char) ≠ "content".data := by
    intro h
    rw [h] at hlastseg
    exact absurd hlastseg (by decide)
  have hd : (stem ++ ".aiida".data : List Char) ≠ "download".data := by
    intro h
    rw [h] at hlastseg
    exact absurd hlastseg (by decide)
  set u := "https://archive.materialscloud.org/records/".data ++
    (id ++ ("/files/".data ++ (stem ++ ".aiida".data))) with hu
  have htail_ne : ("/files/".data ++ (stem ++ ".aiida".data) : List Char) ≠ [] := by simp
  have htail2_ne : (id ++ ("/files/".data ++ (stem ++ ".aiida".data)) : List Char) ≠ [] := by
    intro h
    exact htail_ne (List.append_eq_nil.mp h).2
  have hlastu : ∀ c ∈ u.getLast?, isPySpace c = false ∧ c ≠ '/' := by
    rw [hu, getLast?_append_right htail2_ne, getLast?_append_right htail_ne,
      getLast?_append_right hsegne]
    intro c hcl
    have hm : c ∈ (stem ++ ".aiida".data : List Char) :=
      List.mem_of_getLast?_eq_some hcl
    exact ⟨(hsegall c hm).2.2.2.2, (hsegall c hm).1⟩
  have hq : '?' ∉ u := by
    intro hm
    rcases List.mem_append.mp hm with hm | hm
    · revert hm; decide
    · rcases List.mem_append.mp hm with hm | hm
      · exact (hch '?' hm).2.1 rfl
      · rcases List.mem_append.mp hm with hm | hm
        · revert hm; decide
        · exact (hsegall '?' hm).2.1 rfl
  have hp : pstrip u = u := by
    apply pstrip_eq_self (head_stop_append (by decide))
    exact fun c hc => (hlastu c hc).1
  have hstrip : rstripChars ['/'] (stripSuffixes (pstrip u)) = u :=
    strip_stage_eq_self (head_stop_append (by decide)) hlastu
      (by
        rw [show u = (((("https://archive.materialscloud.org/records/".data ++ id) ++
          "/files/".data) ++ (stem ++ ".aiida".data)) : List Char) from by
            rw [hu]; simp [List.append_assoc]]
        exact not_content_suffix_files hseg1 hsegne hc)
      (by
        rw [show u = (((("https://archive.materialscloud.org/records/".data ++ id) ++
          "/files/".data) ++ (stem ++ ".aiida".data)) : List Char) from by
            rw [hu]; simp [List.append_assoc]]
        exact not_download_suffix_files hseg1 hsegne hd)
      hq
  have hmemtail : ∀ c, c ∈ ("records/".data ++
      (id ++ ("/files/".data ++ (stem ++ ".aiida".data))) : List Char) →
      c ∈ "records//files/".data ∨ c ∈ id ∨ c ∈ (stem ++ ".aiida".data : List Char) := by
    intro c hm
    rcases List.mem_append.mp hm with hm | hm
    · exact Or.inl ((by decide : ∀ x ∈ "records/".data, x ∈ "records//files/".data) c hm)
    · rcases List.mem_append.mp hm with hm | hm
      · right; left; exact hm
      · rcases List.mem_append.mp hm with hm | hm
        · exact Or.inl
            ((by decide : ∀ x ∈ "/files/".data, x ∈ "records//files/".data) c hm)
        · right; right; exact hm
  have hparse : urlparseE u =
      some ⟨"https".data, "archive.materialscloud.org".data,
        "/records/".data ++ (id ++ ("/files/".data ++ (stem ++ ".aiida".data))),
        [], [], []⟩ := by
    rw [show u = "https".data ++ ':' ::
      ('/' :: '/' :: ("archive.materialscloud.org".data ++ '/' ::
        ("records/".data ++ (id ++ ("/files/".data ++ (stem ++ ".aiida".data))))))
      from rfl]
    refine urlparseE_mca _ ?_ ?_ ?_
    · intro c hm
      simp only [bne_iff_ne, ne_eq]
      rcases hmemtail c hm with hm | hm | hm
      · exact (by decide : ∀ x ∈ "records//files/".data, ¬ x = '?') c hm
      · exact (hch c hm).2.1
      · exact (hsegall c hm).2.1
    · intro c hm
      simp only [bne_iff_ne, ne_eq]
      rcases hmemtail c hm with hm | hm | hm
      · exact (by decide : ∀ x ∈ "records//files/".data, ¬ x = '#') c hm
      · exact (hch c hm).2.2.1
      · exact (hsegall c hm).2.2.1
    · intro hm
      rcases List.mem_cons.mp hm with hm | hm
      · exact absurd hm (by decide)
      · rcases hmemtail ';' hm with hm | hm | hm
        · revert hm; decide
        · exact (hch ';' hm).2.2.2.1 rfl
        · exact (hsegall ';' hm).2.2.2.1 rfl
  rw [hp] at hstrip
  have h7 : decide (7 ≤ (stem ++ ".aiida".data : List Char).length) = true := by
    simp only [List.length_append, decide_eq_true_eq,
      show (".aiida".data : List Char).length = 6 from by decide]
    have := List.length_pos.mpr hstemne
    omega
  have hall : (stem ++ ".aiida".data : List Char).all (fun c => c != '/') = true := by
    rw [List.all_append, Bool.and_eq_true]
    refine ⟨?_, by decide⟩
    rw [List.all_eq_true]
    intro c hm
    simp only [bne_iff_ne, ne_eq]
    exact (hsch c hm).1
  have hsuf : ".aiida".data.isSuffixOf (stem ++ ".aiida".data : List Char) = true :=
    List.isSuffixOf_iff_suffix.mpr ⟨stem, rfl⟩
  have hstep : normalizeStep u =
      Sum.inl (some (u, NormOutcome.alreadyCanonical)) := by
    unfold normalizeStep
    rw [hp]
    rw [if_neg (show ¬ u = [] from by
      rw [show u = 'h' :: ("ttps://archive.materialscloud.org/records/".data ++
        (id ++ ("/files/".data ++ (stem ++ ".aiida".data)))) from rfl]
      simp)]
    dsimp only
    rw [hstrip, hparse]
    dsimp only
    rw [if_neg (show ¬ (containsSub expectedHost
      "archive.materialscloud.org".data = false) from by decide)]
    rw [matchApi_on_records]
    dsimp only
    rw [matchCanonical_eval hid3 hidne]
    rw [h7, hall, hsuf]
    exact if_pos rfl
  rw [hraw]
  show normalize_archive_url u = some (u, NormOutcome.alreadyCanonical)
  unfold normalize_archive_url
  rw [normalizeGo, hstep]

set_option maxHeartbeats 1000000 in
/-- Witness for `c8_amended`: the raw input `.../records/r1/files/x.aiida/content`
normalizes to the canonical `.../records/r1/files/x.aiida`, and a second pass
over that result returns it unchanged. -/
theorem c8_amended_witness :
    ((normalize_archive_url
        "https://archive.materialscloud.org/records/r1/files/x.aiida/content".data).bind
      fun r => normalize_archive_url r.1) =
      some ("https://archive.materialscloud.org/records/r1/files/x.aiida".data,
        NormOutcome.alreadyCanonical) :=
  c8_amended "r1".data "x".data
    "https://archive.materialscloud.org/records/r1/files/x.aiida/content".data
    "https://archive.materialscloud.org/records/r1/files/x.aiida".data
    NormOutcome.alreadyCanonical
    (by decide) (by decide) (by decide) (by decide) (by decide) (by decide)

/-- C9: the query-stripping retry is applied at most once per call.  Giving
the recursion any amount of fuel beyond the single retry never changes the
result (so the source's unbounded recursion terminates on every input,
including adversarial inputs with repeated `?`), and the fuel-exhaustion
marker is unreachable from the entry point. -/
theorem c9_query_strip_once (u : List Char) (n : Nat) :
    normalizeGo (n + 1) u = normalize_archive_url u ∧
    (∀ v o, normalize_archive_url u = some (v, o) →
      o ≠ NormOutcome.queryStripRetry) := by
  have key : ∀ (k m : Nat) (sc : List Char × List Char),
      normalizeStep u = .inr sc → normalizeGo k sc.2 = normalizeGo m sc.2 :=
    fun k m sc hs => normalizeGo_fuel_of_no_q (retry_arg_no_q hs) k m
  constructor
  · unfold normalize_archive_url
    conv_lhs => rw [normalizeGo]
    conv_rhs => rw [normalizeGo]
    cases hs : normalizeStep u with
    | inl r => simp only
    | inr sc => exact key n 0 sc hs
  · intro v o hvo hretry
    subst hretry
    unfold normalize_archive_url at hvo
    rw [normalizeGo] at hvo
    cases hs : normalizeStep u with
    | inl r =>
      rw [hs] at hvo
      exact normalizeStep_inl_no_retry hs v hvo
    | inr sc =>
      rw [hs] at hvo
      have hvo2 : normalizeGo 0 sc.2 = some (v, NormOutcome.queryStripRetry) := hvo
      rw [normalizeGo] at hvo2
      cases hs2 : normalizeStep sc.2 with
      | inl r2 =>
        rw [hs2] at hvo2
        exact normalizeStep_inl_no_retry hs2 v hvo2
      | inr sc2 =>
        exact normalizeStep_ne_inr_of_no_q (retry_arg_no_q hs) sc2 hs2

/-- Witness for `c9_query_strip_once` at a concrete adversarial input with
repeated `?`. -/
theorem c9_query_strip_once_witness :
    normalizeGo 3 "https://archive.materialscloud.org/weird?x?y".data =
      normalize_archive_url "https://archive.materialscloud.org/weird?x?y".data ∧
    NormOutcome.unrecognized ≠ NormOutcome.queryStripRetry :=
  ⟨(c9_query_strip_once "https://archive.materialscloud.org/weird?x?y".data 2).1,
    (c9_query_strip_once "https://archive.materialscloud.org/weird?x?y".data 2).2
      "https://archive.materialscloud.org/weird".data NormOutcome.unrecognized
      (by decide)⟩

/-- C10: `check_session_conflict` is a pure read — the persisted session
file and both warning artifacts are unchanged on every path (including the
path where the uncaught `UnicodeDecodeError` escapes), while
`save_current_session` writes exactly the session record (identity, url,
timestamp, pid) and touches neither warning artifact. -/
theorem c10_check_pure_save_frame (w : World) (sid : String)
    (curUrl : Option String) (url ts : String) (pid : Nat) :
    (check_session_conflict w sid curUrl).1 = w ∧
    (save_current_session w sid url ts pid).warningFile = w.warningFile ∧
    (save_current_session w sid url ts pid).summaryFile = w.summaryFile ∧
    (save_current_session w sid url ts pid).sessionFile =
      .parsed ⟨sid, some url, ts, pid⟩ := by
  refine ⟨?_, rfl, rfl, rfl⟩
  unfold check_session_conflict
  cases load_current_session w with
  | error e => rfl
  | ok o =>
    cases o with
    | none => rfl
    | some ex =>
      dsimp only
      split
      · split <;> rfl
      · rfl

end Renku
